import Mathlib

/-!
Verification of the Jack-compiler front end (symbol table, comment stripper,
tokenizer, identifier-use emission) against its natural-language specification.
Definitions are shallow embeddings of the Python source:

* `src/jack_compiler/symbol_table.py`     (SymbolTable, Identifier)
* `src/jack_compiler/comment_handler.py`  (remove_comments, handle_complex_comments)
* `src/jack_analyzer/tokenizer.py`        (classify_token, tokenize_line)
* `src/jack_compiler/compilation_engine.py` (identifier-use emission slices)

Python strings are modelled as `List Char`; Python dicts keyed by identifier
name are modelled as association lists in insertion order (the code only ever
inserts fresh keys, so insertion is an append); the `while` loop in
`handle_complex_comments` is modelled with explicit fuel, `none` meaning the
loop did not finish within the given fuel, so that both termination and
non-termination are expressible.
-/

namespace Jack

/-! ## Symbol table (src/jack_compiler/symbol_table.py) -/

/-- The four declaration categories accepted by `SymbolTable.define`; these are
exactly the keys of the `indexes` dict, so `define` is total on them. -/
inductive Category where
  | static
  | field
  | arg
  | varc
deriving DecidableEq, Repr

/-- The string stored in an `Identifier.category` slot for each category. -/
def Category.str : Category → String
  | .static => "static"
  | .field => "field"
  | .arg => "arg"
  | .varc => "var"

/-- One row of the symbol table (dataclass `Identifier`). -/
structure Identifier where
  name : String
  data_type : String
  category : String
  index : Nat
deriving DecidableEq, Repr

/-- The `indexes` dict of the Python `SymbolTable`: it always holds exactly the
four keys "static", "field", "arg", "var". -/
structure Indexes where
  static : Nat
  field : Nat
  arg : Nat
  var : Nat
deriving DecidableEq, Repr

/-- `self.indexes[category]`. -/
def Indexes.get (i : Indexes) : Category → Nat
  | .static => i.static
  | .field => i.field
  | .arg => i.arg
  | .varc => i.var

/-- `self.indexes[category] += 1`. -/
def Indexes.bump (i : Indexes) : Category → Indexes
  | .static => { i with static := i.static + 1 }
  | .field => { i with field := i.field + 1 }
  | .arg => { i with arg := i.arg + 1 }
  | .varc => { i with var := i.var + 1 }

/-- A Python dict keyed by identifier name, in insertion order. -/
abbrev Dict := List (String × Identifier)

/-- `d.get(k)` on a Python dict (first binding wins; keys are unique because
the code only inserts a key after checking it is absent). -/
def dictGet (d : Dict) (k : String) : Option Identifier :=
  match d with
  | [] => none
  | (k', v) :: rest => if k' = k then some v else dictGet rest k

/-- The `SymbolTable` dataclass: two scope dicts plus the four counters. -/
structure SymbolTable where
  class_table : Dict
  subroutine_table : Dict
  indexes : Indexes
deriving DecidableEq, Repr

/-- `SymbolTable()` with its default factories. -/
def SymbolTable.init : SymbolTable := ⟨[], [], ⟨0, 0, 0, 0⟩⟩

/-- `start_subroutine`: clear the subroutine dict, zero the arg and var counters. -/
def SymbolTable.start_subroutine (t : SymbolTable) : SymbolTable :=
  { t with
    subroutine_table := []
    indexes := { t.indexes with arg := 0, var := 0 } }

/-- `start_class`: clear the class dict, zero static and field, then
`start_subroutine`. -/
def SymbolTable.start_class (t : SymbolTable) : SymbolTable :=
  ({ t with
      class_table := []
      indexes := { t.indexes with static := 0, field := 0 } }).start_subroutine

/-- `define(name, data_type, category)`.  Faithful to the source order: the
counter for `category` is read and incremented *before* the duplicate check,
so on a raise (`Except.error`) the returned state still carries the bumped
counter while both dicts are untouched.  `Except.error` carries the state the
mutated `self` is left in when `ValueError` propagates. -/
def SymbolTable.define (t : SymbolTable) (name data_type : String)
    (category : Category) : Except SymbolTable SymbolTable :=
  let new_idx := t.indexes.get category
  let t1 : SymbolTable := { t with indexes := t.indexes.bump category }
  let new_id : Identifier := ⟨name, data_type, category.str, new_idx⟩
  if category = .static ∨ category = .field then
    match dictGet t1.class_table name with
    | some _ => .error t1
    | none => .ok { t1 with class_table := t1.class_table ++ [(name, new_id)] }
  else
    match dictGet t1.subroutine_table name with
    | some _ => .error t1
    | none =>
      .ok { t1 with subroutine_table := t1.subroutine_table ++ [(name, new_id)] }

/-- `get(item, default=None)`: the source consults the *class* table first and
the subroutine table only when the class table misses. -/
def SymbolTable.get (t : SymbolTable) (item : String) : Option Identifier :=
  match dictGet t.class_table item with
  | some identifier => some identifier
  | none =>
    match dictGet t.subroutine_table item with
    | some identifier => some identifier
    | none => none

/-- The scope dict that `define category` checks and inserts into. -/
def targetTable (t : SymbolTable) (category : Category) : Dict :=
  if category = .static ∨ category = .field then t.class_table
  else t.subroutine_table

/-! ## Claim C1: lookup order of `SymbolTable.get` -/

/-- A table holding the name "x" in both scopes with distinct records. -/
def c1Table : SymbolTable :=
  ⟨[("x", ⟨"x", "int", "field", 0⟩)], [("x", ⟨"x", "int", "var", 0⟩)], ⟨0, 1, 0, 1⟩⟩

/-- Claim C1 is false on the code: with "x" present in both scopes,
`SymbolTable.get` returns the class-scope record, not the subroutine-scope
record. -/
theorem get_returns_class_record_counterexample :
    dictGet c1Table.class_table "x" = some ⟨"x", "int", "field", 0⟩ ∧
    dictGet c1Table.subroutine_table "x" = some ⟨"x", "int", "var", 0⟩ ∧
    c1Table.get "x" = some ⟨"x", "int", "field", 0⟩ ∧
    (⟨"x", "int", "field", 0⟩ : Identifier) ≠ ⟨"x", "int", "var", 0⟩ := by
  refine ⟨rfl, rfl, rfl, ?_⟩
  intro h
  exact absurd (congrArg Identifier.category h) (by decide)

/-- Claim C1 (amended): `SymbolTable.get` consults the class scope first; the
subroutine scope is consulted only when the name is absent from the class
scope, and `none` is returned only when the name is absent from both. -/
theorem get_class_scope_first (t : SymbolTable) (item : String) :
    (∀ r, dictGet t.class_table item = some r → t.get item = some r) ∧
    (dictGet t.class_table item = none →
      t.get item = dictGet t.subroutine_table item) := by
  constructor
  · intro r h
    simp [SymbolTable.get, h]
  · intro h
    simp only [SymbolTable.get, h]
    cases dictGet t.subroutine_table item <;> rfl

/-- Witness for `get_class_scope_first` at a concrete table. -/
theorem get_class_scope_first_witness :
    c1Table.get "x" = some ⟨"x", "int", "field", 0⟩ :=
  (get_class_scope_first c1Table "x").1 _ rfl

/-! ## Claim C4: failure behaviour of `define` -/

/-- A table already holding a static "x", with the static counter at 1. -/
def c4Table : SymbolTable := ⟨[("x", ⟨"x", "int", "static", 0⟩)], [], ⟨1, 0, 0, 0⟩⟩

/-- Claim C4 is false on the code: a failing `define` does not leave the table
unchanged — the counter of the chosen category has already been incremented
when the error is raised. -/
theorem define_failure_mutates_counter_counterexample :
    c4Table.define "x" "int" .static =
      .error ⟨[("x", ⟨"x", "int", "static", 0⟩)], [], ⟨2, 0, 0, 0⟩⟩ ∧
    (⟨2, 0, 0, 0⟩ : Indexes) ≠ c4Table.indexes := by
  refine ⟨rfl, ?_⟩
  intro h
  exact absurd (congrArg Indexes.static h) (by decide)

/-- Claim C4 (amended): `define` fails exactly when the name is already
present in the scope selected by the category; on failure both scope dicts are
unchanged, but the chosen category's counter has been incremented (the other
three counters are unchanged). -/
theorem define_error_spec (t : SymbolTable) (name data_type : String)
    (c : Category) :
    match t.define name data_type c with
    | .error t' =>
        (dictGet (targetTable t c) name).isSome = true ∧
        t'.class_table = t.class_table ∧
        t'.subroutine_table = t.subroutine_table ∧
        t'.indexes = t.indexes.bump c
    | .ok _ => dictGet (targetTable t c) name = none := by
  by_cases hc : c = .static ∨ c = .field
  · simp only [SymbolTable.define, targetTable, if_pos hc]
    cases h : dictGet t.class_table name <;> simp [h]
  · simp only [SymbolTable.define, targetTable, if_neg hc]
    cases h : dictGet t.subroutine_table name <;> simp [h]

/-! ## Claim C2: implicit `this` argument for methods -/

/-- The symbol-table effect at the head of `compile_subroutine_dec`
(compilation_engine.py lines 286-295): `start_subroutine()`, then, when the
subroutine keyword is "method", `define("this", self._current_filename, "arg")`.
The data type passed is the engine's current *filename*, verbatim. -/
def subroutine_dec_table_init (t : SymbolTable) (kind current_filename : String) :
    Except SymbolTable SymbolTable :=
  let t1 := t.start_subroutine
  if kind = "method" then t1.define "this" current_filename .arg
  else .ok t1

/-- Claim C2 is false on the code: compiling a `method` in the file
"Square.jack" (whose class, per the naming convention, is `Square`) records
`this` with `data_type = "Square.jack"` — the current filename — which is not
the enclosing class name "Square". -/
theorem method_this_data_type_is_filename_counterexample :
    subroutine_dec_table_init SymbolTable.init "method" "Square.jack" =
      .ok ⟨[], [("this", ⟨"this", "Square.jack", "arg", 0⟩)], ⟨0, 0, 1, 0⟩⟩ ∧
    ("Square.jack" : String) ≠ "Square" := by
  exact ⟨rfl, by decide⟩

/-- Claim C2 (amended): on entry to a `method`, immediately after the
subroutine scope is reset, the subroutine table holds exactly the record
`(name = "this", data_type = current filename, category = "arg", index = 0)`
— the data type is the engine's `_current_filename`, not the class name — and
the first explicitly declared parameter is then defined with index 1. -/
theorem method_this_arg_zero (t : SymbolTable) (fn : String) :
    ∃ t', subroutine_dec_table_init t "method" fn = .ok t' ∧
      t'.subroutine_table = [("this", ⟨"this", fn, "arg", 0⟩)] ∧
      ∀ p data_type, p ≠ "this" →
        ∃ t'', t'.define p data_type .arg = .ok t'' ∧
          dictGet t''.subroutine_table p = some ⟨p, data_type, "arg", 1⟩ := by
  refine ⟨⟨t.class_table, [("this", ⟨"this", fn, "arg", 0⟩)],
    ⟨t.indexes.static, t.indexes.field, 1, 0⟩⟩, rfl, rfl, ?_⟩
  intro p data_type hp
  refine ⟨⟨t.class_table,
    [("this", ⟨"this", fn, "arg", 0⟩), (p, ⟨p, data_type, "arg", 1⟩)],
    ⟨t.indexes.static, t.indexes.field, 2, 0⟩⟩, ?_, ?_⟩
  · simp [SymbolTable.define, dictGet, Indexes.get, Indexes.bump, Category.str,
      Ne.symm hp]
  · simp [dictGet, Ne.symm hp]

/-- Witness for `method_this_arg_zero` at a concrete table and filename. -/
theorem method_this_arg_zero_witness :
    ∃ t', subroutine_dec_table_init SymbolTable.init "method" "Square.jack" = .ok t' ∧
      t'.subroutine_table = [("this", ⟨"this", "Square.jack", "arg", 0⟩)] ∧
      ∃ t'', t'.define "x" "int" .arg = .ok t'' ∧
        dictGet t''.subroutine_table "x" = some ⟨"x", "int", "arg", 1⟩ := by
  obtain ⟨t', h1, h2, h3⟩ := method_this_arg_zero SymbolTable.init "Square.jack"
  exact ⟨t', h1, h2, h3 "x" "int" (by decide)⟩

/-! ## Claim C3: declaration-index invariant -/

/-- One call on the symbol-table API. -/
inductive Op where
  | startClass
  | startSubroutine
  | defineOp (name data_type : String) (category : Category)

/-- The state after one call; a failing `define` leaves the state the raise
leaves behind (counter already bumped, dicts untouched). -/
def applyOp (t : SymbolTable) : Op → SymbolTable
  | .startClass => t.start_class
  | .startSubroutine => t.start_subroutine
  | .defineOp n d c =>
    match t.define n d c with
    | .ok t' => t'
    | .error t' => t'

/-- Whether the call succeeds without raising. -/
def opOk (t : SymbolTable) : Op → Bool
  | .startClass => true
  | .startSubroutine => true
  | .defineOp n d c =>
    match t.define n d c with
    | .ok _ => true
    | .error _ => false

/-- Run a call sequence from a given state. -/
def runFrom (t : SymbolTable) : List Op → SymbolTable
  | [] => t
  | op :: rest => runFrom (applyOp t op) rest

/-- Whether every call in the sequence succeeds. -/
def cleanFrom (t : SymbolTable) : List Op → Bool
  | [] => true
  | op :: rest => opOk t op && cleanFrom (applyOp t op) rest

/-- Run a call sequence from the freshly constructed table. -/
def run (ops : List Op) : SymbolTable := runFrom SymbolTable.init ops

/-- Whether every call in the sequence succeeds from the fresh table. -/
def runClean (ops : List Op) : Bool := cleanFrom SymbolTable.init ops

/-- Number of records of a given category stored in a scope dict. -/
def countCat (l : Dict) (cat : String) : Nat :=
  (l.filter (fun p => p.2.category == cat)).length

/-- The claimed invariant for one scope dict: every record's index equals the
number of same-category records inserted strictly before it (insertion order
is list order). -/
def scopeInv (l : Dict) : Prop :=
  ∀ i p, l[i]? = some p → p.2.index = countCat (l.take i) p.2.category

/-- The claimed invariant for the whole table. -/
def tableInv (t : SymbolTable) : Prop :=
  scopeInv t.class_table ∧ scopeInv t.subroutine_table

/-- A sequence in which the middle `define` fails. -/
def c3Ops : List Op :=
  [.defineOp "x" "int" .static, .defineOp "x" "int" .static,
   .defineOp "y" "int" .static]

/-- Claim C3 is false on the code: after a failing `define` (duplicate "x"),
the record for "y" is stored with index 2 although only one static record was
inserted before it, because the failing call already incremented the counter. -/
theorem index_invariant_counterexample :
    (run c3Ops).class_table =
      [("x", ⟨"x", "int", "static", 0⟩), ("y", ⟨"y", "int", "static", 2⟩)] ∧
    ¬ tableInv (run c3Ops) := by
  refine ⟨rfl, ?_⟩
  intro h
  have h2 := h.1 1 ("y", ⟨"y", "int", "static", 2⟩) rfl
  exact absurd h2 (by decide)

/-- The strengthened induction invariant: the stored indices are correct and
each counter equals the number of stored records of its category. -/
def fullInv (t : SymbolTable) : Prop :=
  scopeInv t.class_table ∧ scopeInv t.subroutine_table ∧
  t.indexes.static = countCat t.class_table "static" ∧
  t.indexes.field = countCat t.class_table "field" ∧
  t.indexes.arg = countCat t.subroutine_table "arg" ∧
  t.indexes.var = countCat t.subroutine_table "var"

theorem scopeInv_nil : scopeInv [] := by
  intro i p hp
  simp at hp

theorem countCat_append (l : Dict) (q : String × Identifier) (c : String) :
    countCat (l ++ [q]) c =
      countCat l c + (if q.2.category == c then 1 else 0) := by
  by_cases h : q.2.category == c <;>
    simp [countCat, List.filter_append, List.filter_cons, h]

theorem scopeInv_append (l : Dict) (q : String × Identifier)
    (h : scopeInv l) (hq : q.2.index = countCat l q.2.category) :
    scopeInv (l ++ [q]) := by
  intro i p hp
  rcases lt_trichotomy i l.length with hi | hi | hi
  · rw [List.getElem?_append_left hi] at hp
    rw [List.take_append_of_le_length (le_of_lt hi)]
    exact h i p hp
  · subst hi
    have : (l ++ [q])[l.length]? = some q := by simp
    rw [this, Option.some_inj] at hp
    subst hp
    rw [List.take_append_of_le_length (le_refl _), List.take_length]
    exact hq
  · have : (l ++ [q])[i]? = none := by
      apply List.getElem?_eq_none
      simp
      omega
    rw [this] at hp
    exact absurd hp (by simp)

theorem fullInv_start_subroutine (t : SymbolTable) (h : fullInv t) :
    fullInv t.start_subroutine := by
  obtain ⟨h1, _, h3, h4, _, _⟩ := h
  exact ⟨h1, scopeInv_nil, h3, h4, rfl, rfl⟩

theorem fullInv_start_class (t : SymbolTable) :
    fullInv t.start_class := by
  exact ⟨scopeInv_nil, scopeInv_nil, rfl, rfl, rfl, rfl⟩

theorem fullInv_define (t : SymbolTable) (n d : String) (c : Category)
    (t' : SymbolTable) (h : fullInv t) (hd : t.define n d c = .ok t') :
    fullInv t' := by
  obtain ⟨h1, h2, h3, h4, h5, h6⟩ := h
  cases c
  case static =>
    rw [SymbolTable.define, if_pos (Or.inl rfl)] at hd
    cases hg : dictGet t.class_table n <;> rw [hg] at hd
    case some v => exact absurd hd (by simp)
    case none =>
      rw [Except.ok.injEq] at hd
      subst hd
      refine ⟨scopeInv_append _ _ h1 h3, h2, ?_, ?_, h5, h6⟩
      · rw [countCat_append]
        simp [Indexes.bump, Indexes.get, Category.str, h3]
      · rw [countCat_append]
        simp [Indexes.bump, Category.str, h4]
  case field =>
    rw [SymbolTable.define, if_pos (Or.inr rfl)] at hd
    cases hg : dictGet t.class_table n <;> rw [hg] at hd
    case some v => exact absurd hd (by simp)
    case none =>
      rw [Except.ok.injEq] at hd
      subst hd
      refine ⟨scopeInv_append _ _ h1 h4, h2, ?_, ?_, h5, h6⟩
      · rw [countCat_append]
        simp [Indexes.bump, Category.str, h3]
      · rw [countCat_append]
        simp [Indexes.bump, Indexes.get, Category.str, h4]
  case arg =>
    rw [SymbolTable.define, if_neg (by simp)] at hd
    cases hg : dictGet t.subroutine_table n <;> rw [hg] at hd
    case some v => exact absurd hd (by simp)
    case none =>
      rw [Except.ok.injEq] at hd
      subst hd
      refine ⟨h1, scopeInv_append _ _ h2 h5, h3, h4, ?_, ?_⟩
      · rw [countCat_append]
        simp [Indexes.bump, Indexes.get, Category.str, h5]
      · rw [countCat_append]
        simp [Indexes.bump, Category.str, h6]
  case varc =>
    rw [SymbolTable.define, if_neg (by simp)] at hd
    cases hg : dictGet t.subroutine_table n <;> rw [hg] at hd
    case some v => exact absurd hd (by simp)
    case none =>
      rw [Except.ok.injEq] at hd
      subst hd
      refine ⟨h1, scopeInv_append _ _ h2 h6, h3, h4, ?_, ?_⟩
      · rw [countCat_append]
        simp [Indexes.bump, Category.str, h5]
      · rw [countCat_append]
        simp [Indexes.bump, Indexes.get, Category.str, h6]

theorem fullInv_applyOp (t : SymbolTable) (op : Op) (h : fullInv t)
    (hok : opOk t op = true) : fullInv (applyOp t op) := by
  cases op with
  | startClass => exact fullInv_start_class t
  | startSubroutine => exact fullInv_start_subroutine t h
  | defineOp n d c =>
    rw [opOk] at hok
    cases hd : t.define n d c with
    | ok t' =>
      have : applyOp t (.defineOp n d c) = t' := by rw [applyOp, hd]
      rw [this]
      exact fullInv_define t n d c t' h hd
    | error t' => rw [hd] at hok; exact absurd hok (by simp)

theorem cleanFrom_fullInv (ops : List Op) :
    ∀ t, fullInv t → cleanFrom t ops = true → fullInv (runFrom t ops) := by
  induction ops with
  | nil => intro t h _; exact h
  | cons op rest ih =>
    intro t h hc
    rw [cleanFrom, Bool.and_eq_true] at hc
    exact ih _ (fullInv_applyOp t op h hc.1) hc.2

/-- Claim C3 (amended): after any finite sequence of symbol-table calls in
which every `define` succeeds, every stored record's index equals the number
of same-(scope, category) records inserted strictly before it.  (When a
`define` fails, the counter of its category has nevertheless been incremented,
so later records of that category overshoot the count — see the
counterexample.) -/
theorem index_invariant_of_clean (ops : List Op) (h : runClean ops = true) :
    tableInv (run ops) := by
  have hfull : fullInv (runFrom SymbolTable.init ops) :=
    cleanFrom_fullInv ops SymbolTable.init
      ⟨scopeInv_nil, scopeInv_nil, rfl, rfl, rfl, rfl⟩ h
  exact ⟨hfull.1, hfull.2.1⟩

/-- A sequence of successful calls across both scopes. -/
def c3CleanOps : List Op :=
  [.defineOp "x" "int" .static, .defineOp "y" "int" .field,
   .startSubroutine, .defineOp "a" "int" .arg, .defineOp "b" "int" .varc]

/-- Witness for `index_invariant_of_clean` on a concrete clean sequence. -/
theorem index_invariant_of_clean_witness :
    runClean c3CleanOps = true ∧ tableInv (run c3CleanOps) :=
  ⟨rfl, index_invariant_of_clean c3CleanOps rfl⟩

/-! ## Claim C5: emission of identifier uses -/

/-- The string built by the `" ".join(...)` for a resolved identifier use in
`compile_let` and `compile_term` (usage 'used', with category and index). -/
def used_identifier_xml (category : String) (index : Nat) (name : String) :
    String :=
  "<identifier category='" ++ category ++ "' index=" ++ toString index ++
    " usage='used'> " ++ name ++ " </identifier>\n"

/-- The string built for an unresolved identifier in the qualified-call branch
(treated as a class reference, no index). -/
def class_identifier_xml (name : String) : String :=
  "<identifier category='class'> " ++ name ++ " </identifier>\n"

/-- Identifier-use emission in `compile_let` (lines 525-544) and in the
variable / array-indexing / bare-call branches of `compile_term` (lines
804-854 and 914-932): the record returned by `self._symbol_table.get` is
dereferenced unconditionally, so a miss raises `AttributeError` on
`None.category` — modelled by `none`.  No class-reference fallback exists on
these paths. -/
def emit_used_identifier (t : SymbolTable) (identifier_name : String) :
    Option String :=
  match t.get identifier_name with
  | some identifier =>
      some (used_identifier_xml identifier.category identifier.index
        identifier_name)
  | none => none

/-- First-identifier emission in the qualified-call branch of `compile_term`
(lines 856-882): this branch checks the lookup result and falls back to a
class reference when the name is unresolved. -/
def emit_qualifier_identifier (t : SymbolTable) (identifier_name : String) :
    String :=
  match t.get identifier_name with
  | none => class_identifier_xml identifier_name
  | some identifier =>
      used_identifier_xml identifier.category identifier.index identifier_name

/-- Claim C5 is false on the code: in `compile_let` and in the variable /
array / bare-call forms of `compile_term`, an identifier the lookup does not
find is not emitted as a class reference — the code raises (no emission at
all, modelled by `none`). -/
theorem use_miss_raises_counterexample :
    SymbolTable.init.get "x" = none ∧
    emit_used_identifier SymbolTable.init "x" = none ∧
    (none : Option String) ≠ some (class_identifier_xml "x") := by
  exact ⟨rfl, rfl, by simp⟩

/-- Claim C5 (amended): when lookup finds a record, every use site emits the
identifier with that record's category, index and usage 'used' (and lookup
never modifies the table — `SymbolTable.get` is read-only); when lookup finds
nothing, only the qualified-call branch emits a class reference without an
index, while `compile_let` and the variable / array / bare-call branches of
`compile_term` raise instead of emitting. -/
theorem use_emission_spec (t : SymbolTable) (n : String) :
    (∀ r, t.get n = some r →
        emit_used_identifier t n =
          some (used_identifier_xml r.category r.index n) ∧
        emit_qualifier_identifier t n =
          used_identifier_xml r.category r.index n) ∧
    (t.get n = none →
        emit_used_identifier t n = none ∧
        emit_qualifier_identifier t n = class_identifier_xml n) := by
  constructor
  · intro r h
    simp [emit_used_identifier, emit_qualifier_identifier, h]
  · intro h
    simp [emit_used_identifier, emit_qualifier_identifier, h]

/-- Witness for `use_emission_spec`: a resolved use on a concrete table and an
unresolved use on the empty table. -/
theorem use_emission_spec_witness :
    emit_used_identifier c1Table "x" =
      some (used_identifier_xml "field" 0 "x") ∧
    emit_qualifier_identifier SymbolTable.init "y" =
      class_identifier_xml "y" := by
  constructor
  · exact ((use_emission_spec c1Table "x").1 ⟨"x", "int", "field", 0⟩ rfl).1
  · exact ((use_emission_spec SymbolTable.init "y").2 rfl).2

/-! ## Comment stripper (src/jack_compiler/comment_handler.py)

Lines are `List Char`.  `substr_find l pat` is Python `l.find(pat)` (`none`
for -1); `remove_all pat l` is `l.replace(pat, "")`; `pyStrip` is `l.strip()`
restricted to ASCII whitespace (the only whitespace that occurs in source
lines).  The `while` loop of `handle_complex_comments` takes explicit fuel:
`none` means the loop did not finish within that much fuel, so claims about
termination and non-termination are both expressible. -/

/-- The double-quote character (Char 34). -/
def quoteChar : Char := Char.ofNat 34

/-- ASCII whitespace as stripped by Python str.strip. -/
def isPySpace (c : Char) : Bool :=
  c = ' ' || c = '\t' || c = '\n' || c = '\r' ||
    c = Char.ofNat 11 || c = Char.ofNat 12

/-- Strip leading whitespace. -/
def trim_left (l : List Char) : List Char := l.dropWhile isPySpace

/-- Strip trailing whitespace. -/
def trim_right (l : List Char) : List Char :=
  (l.reverse.dropWhile isPySpace).reverse

/-- Python `str.strip()`. -/
def pyStrip (l : List Char) : List Char := trim_right (trim_left l)

/-- Helper for `substr_find`: first index `≥ i` at which `pat` starts. -/
def substr_find_from (pat : List Char) : Nat → List Char → Option Nat
  | i, [] => if pat.isPrefixOf [] then some i else none
  | i, c :: rest =>
    if pat.isPrefixOf (c :: rest) then some i
    else substr_find_from pat (i + 1) rest

/-- Python `l.find(pat)`: index of the first occurrence, `none` for -1. -/
def substr_find (l pat : List Char) : Option Nat := substr_find_from pat 0 l

/-- Python slice `l[a:b]` for `0 ≤ a, b` (empty when `b ≤ a`). -/
def pySlice (l : List Char) (a b : Nat) : List Char := (l.drop a).take (b - a)

/-- Helper for `remove_all` with a nonempty pattern: delete every
(non-overlapping, leftmost-first) occurrence. -/
def remove_all_ne (p : Char) (ps : List Char) : List Char → List Char
  | [] => []
  | c :: rest =>
    if (p :: ps).isPrefixOf (c :: rest) then remove_all_ne p ps (rest.drop ps.length)
    else c :: remove_all_ne p ps rest
termination_by l => l.length
decreasing_by
  · simp only [List.length_drop, List.length_cons]
    omega
  · simp only [List.length_cons]
    omega

/-- Python `l.replace(pat, "")`: the empty pattern leaves `l` unchanged. -/
def remove_all (pat l : List Char) : List Char :=
  match pat with
  | [] => l
  | p :: ps => remove_all_ne p ps l

/-- Helper for `count_substr` with a nonempty pattern. -/
def count_substr_ne (p : Char) (ps : List Char) : List Char → Nat
  | [] => 0
  | c :: rest =>
    if (p :: ps).isPrefixOf (c :: rest) then count_substr_ne p ps (rest.drop ps.length) + 1
    else count_substr_ne p ps rest
termination_by l => l.length
decreasing_by
  · simp only [List.length_drop, List.length_cons]
    omega
  · simp only [List.length_cons]
    omega

/-- Python `l.count(pat)` (non-overlapping occurrences). -/
def count_substr (pat l : List Char) : Nat :=
  match pat with
  | [] => l.length + 1
  | p :: ps => count_substr_ne p ps l

/-- `ML_COMMENT_START`. -/
def ml_comment_start : List Char := ['/', '*']

/-- `ML_COMMENT_END`. -/
def ml_comment_end : List Char := ['*', '/']

/-- `COMMENT`. -/
def comment_start : List Char := ['/', '/']

/-- `is_single_comment`: the line starts with `//`. -/
def is_single_comment (line : List Char) : Bool :=
  comment_start.isPrefixOf line

/-- `is_full_ml_comment`: starts with the block opener, ends with the block
closer, and contains the closer exactly once. -/
def is_full_ml_comment (line : List Char) : Bool :=
  ml_comment_start.isPrefixOf line && ml_comment_end.isSuffixOf line &&
    (count_substr ml_comment_end line == 1)

/-- The `while` loop of `handle_complex_comments` (lines 60-71): while the
line contains a block opener, delete either the closed comment slice or the
open tail, via `replace`.  Fuel bounds the number of iterations; `none` means
the loop has not finished. -/
def strip_block_loop : Nat → List Char → Bool → Option (List Char × Bool)
  | 0, _, _ => none
  | fuel + 1, line, active =>
    match substr_find line ml_comment_start with
    | none => some (line, active)
    | some index =>
      match substr_find line ml_comment_end with
      | some end_index =>
        strip_block_loop fuel
          (remove_all (pySlice line index (end_index + 2)) line) false
      | none => strip_block_loop fuel (remove_all (line.drop index) line) true

/-- Lines 74-75: truncate at the first `//`, if any. -/
def truncate_at_comment (line : List Char) : List Char :=
  match substr_find line comment_start with
  | some index => line.take index
  | none => line

/-- `handle_complex_comments` when `active_comment` is false: the block loop,
then single-line truncation, then strip (lines 59-75, 88). -/
def handle_not_active (fuel : Nat) (line : List Char) :
    Option (List Char × Bool) :=
  match strip_block_loop fuel line false with
  | none => none
  | some (l, active) => some (pyStrip (truncate_at_comment l), active)

/-- `handle_complex_comments(line, active_comment)` (lines 47-88).  In the
active branch, when a closer exists the prefix through it is removed with
`replace` and the function recurses with `active_comment = False`; the final
`return line.strip(), active_comment` strips the recursion's result again. -/
def handle_complex_comments (fuel : Nat) (line : List Char)
    (active_comment : Bool) : Option (List Char × Bool) :=
  if active_comment then
    match substr_find line ml_comment_end with
    | some end_index =>
      match handle_not_active fuel (remove_all (line.take (end_index + 2)) line) with
      | none => none
      | some (l, a) => some (pyStrip l, a)
    | none => some ([], true)
  else handle_not_active fuel line

/-- The loop body of `remove_comments` (lines 101-116), with `stack` the
lines accumulated so far. -/
def remove_comments_from (fuel : Nat) :
    List (List Char) → Bool → List (List Char) → Option (List (List Char))
  | [], _, stack => some stack
  | line :: rest, active_comment, stack =>
    if is_single_comment line || is_full_ml_comment line then
      remove_comments_from fuel rest active_comment stack
    else
      match handle_complex_comments fuel line active_comment with
      | none => none
      | some (l, a) =>
        if a = false ∧ l ≠ [] then remove_comments_from fuel rest a (stack ++ [l])
        else remove_comments_from fuel rest a stack

/-- `remove_comments(file_contents)` under the given loop fuel. -/
def remove_comments (fuel : Nat) (file_contents : List (List Char)) :
    Option (List (List Char)) :=
  remove_comments_from fuel file_contents false []

/-! ## Claim C6: (non-)termination of the comment stripper -/

/-- The line `*/ /*`: a block closer strictly before a block opener. -/
def c6Line : List Char := ['*', '/', ' ', '/', '*']

theorem strip_block_loop_c6 (fuel : Nat) :
    strip_block_loop fuel c6Line false = none := by
  induction fuel with
  | zero => rfl
  | succ n ih =>
    have hstep : strip_block_loop (n + 1) c6Line false =
        strip_block_loop n c6Line false := rfl
    rw [hstep]
    exact ih

/-- Claim C6 is false on the code, and the code is wrong: on the line
`*/ /*` — where a `*/` occurs before a `/*` — the `while` loop of
`handle_complex_comments` never terminates, because `line.find('/*') = 3` and
`line.find('*/') = 0` make the slice `line[3:2]` empty and
`line.replace('', '')` leaves the line unchanged.  No finite fuel suffices. -/
theorem remove_comments_nonterminating (fuel : Nat) :
    remove_comments fuel [c6Line] = none := by
  have h1 : handle_complex_comments fuel c6Line false =
      handle_not_active fuel c6Line := rfl
  have h2 : handle_not_active fuel c6Line = none := by
    rw [handle_not_active, strip_block_loop_c6 fuel]
  rw [remove_comments, remove_comments_from, if_neg (by decide), h1, h2]

/-! ## Occurrence lemmas for `substr_find` -/

theorem sff_none (pat : List Char) :
    ∀ (l : List Char) (i : Nat), substr_find_from pat i l = none →
      ∀ m, ¬ pat <+: l.drop m := by
  intro l
  induction l with
  | nil =>
    intro i h m hc
    rw [substr_find_from] at h
    rw [List.drop_nil] at hc
    rw [if_pos (List.isPrefixOf_iff_prefix.mpr hc)] at h
    exact absurd h (by simp)
  | cons c rest ih =>
    intro i h m
    rw [substr_find_from] at h
    by_cases hp : pat.isPrefixOf (c :: rest)
    · rw [if_pos hp] at h
      exact absurd h (by simp)
    · rw [if_neg hp] at h
      cases m with
      | zero => exact fun hc => hp (List.isPrefixOf_iff_prefix.mpr hc)
      | succ m' => exact ih (i + 1) h m'

theorem sff_some (pat : List Char) :
    ∀ (l : List Char) (i k : Nat), substr_find_from pat i l = some k →
      ∃ m, k = i + m ∧ pat <+: l.drop m ∧ ∀ j, j < m → ¬ pat <+: l.drop j := by
  intro l
  induction l with
  | nil =>
    intro i k h
    rw [substr_find_from] at h
    by_cases hp : pat.isPrefixOf []
    · rw [if_pos hp, Option.some_inj] at h
      refine ⟨0, by omega, ?_, ?_⟩
      · simpa using List.isPrefixOf_iff_prefix.mp hp
      · intro j hj
        exact absurd hj (Nat.not_lt_zero j)
    · rw [if_neg hp] at h
      exact absurd h (by simp)
  | cons c rest ih =>
    intro i k h
    rw [substr_find_from] at h
    by_cases hp : pat.isPrefixOf (c :: rest)
    · rw [if_pos hp, Option.some_inj] at h
      refine ⟨0, by omega, ?_, ?_⟩
      · simpa using List.isPrefixOf_iff_prefix.mp hp
      · intro j hj
        exact absurd hj (Nat.not_lt_zero j)
    · rw [if_neg hp] at h
      obtain ⟨m, hk, hpre, hmin⟩ := ih (i + 1) k h
      refine ⟨m + 1, by omega, by simpa using hpre, ?_⟩
      intro j hj
      cases j with
      | zero => exact fun hc => hp (List.isPrefixOf_iff_prefix.mpr (by simpa using hc))
      | succ j' => exact fun hc => hmin j' (by omega) (by simpa using hc)

theorem substr_find_none_iff (l pat : List Char) :
    substr_find l pat = none ↔ ¬ pat <:+: l := by
  constructor
  · intro h hinf
    obtain ⟨s, t, hst⟩ := hinf
    have hpre : pat <+: l.drop s.length := by
      rw [← hst, List.append_assoc, List.drop_left]
      exact ⟨t, rfl⟩
    exact sff_none pat l 0 h s.length hpre
  · intro h
    cases hf : substr_find l pat with
    | none => rfl
    | some k =>
      obtain ⟨m, _, hpre, _⟩ := sff_some pat l 0 k hf
      exact absurd (hpre.isInfix.trans (List.drop_suffix m l).isInfix) h

theorem substr_find_some_min (l pat : List Char) (k : Nat)
    (h : substr_find l pat = some k) :
    pat <+: l.drop k ∧ ∀ j, j < k → ¬ pat <+: l.drop j := by
  obtain ⟨m, hm, hpre, hmin⟩ := sff_some pat l 0 k h
  have : m = k := by omega
  subst this
  exact ⟨hpre, hmin⟩

theorem substr_find_first_take (l : List Char) (p : Char) (ps : List Char)
    (k : Nat) (h : substr_find l (p :: ps) = some k) :
    ¬ (p :: ps) <:+: l.take k := by
  intro hinf
  obtain ⟨hpre0, hmin⟩ := substr_find_some_min l (p :: ps) k h
  obtain ⟨s, t, hst⟩ := hinf
  have hlen := congrArg List.length hst
  simp [List.length_take] at hlen
  have hklen : k ⊓ l.length ≤ k := min_le_left _ _
  have hsk : s.length < k := by omega
  have h1 : (p :: ps) <+: (l.take k).drop s.length := by
    rw [← hst, List.append_assoc, List.drop_left]
    exact ⟨t, rfl⟩
  have h2 : (l.take k).drop s.length <+: l.drop s.length := by
    rw [List.drop_take]
    exact List.take_prefix _ _
  exact hmin s.length hsk (h1.trans h2)

/-! ## Trim lemmas -/

theorem dropWhile_idem (p : Char → Bool) (l : List Char) :
    (l.dropWhile p).dropWhile p = l.dropWhile p := by
  induction l with
  | nil => rfl
  | cons c rest ih =>
    by_cases h : p c
    · simp [List.dropWhile_cons, h, ih]
    · simp [List.dropWhile_cons, h]

theorem dropWhile_of_prefix (p : Char → Bool) (x y : List Char)
    (hx : x.dropWhile p = x) (hy : y <+: x) : y.dropWhile p = y := by
  cases x with
  | nil =>
    rw [List.prefix_nil.mp hy]
    rfl
  | cons c rest =>
    have hc : p c = false := by
      by_contra hcc
      rw [List.dropWhile_cons, if_pos (by simpa using hcc)] at hx
      have hlen := congrArg List.length hx
      have hle := (List.dropWhile_suffix (l := rest) p).length_le
      simp at hlen
      omega
    cases y with
    | nil => rfl
    | cons d ys =>
      obtain ⟨t, ht⟩ := hy
      have hdc : d = c := by
        rw [List.cons_append] at ht
        exact (List.cons.injEq d (ys ++ t) c rest).mp ht |>.1
      subst hdc
      rw [List.dropWhile_cons, if_neg (by simp [hc])]

theorem trim_right_shrinks (l : List Char) : trim_right l <+: l := by
  have h := List.reverse_prefix.mpr (List.dropWhile_suffix (l := l.reverse) isPySpace)
  rwa [List.reverse_reverse] at h

theorem trim_left_suffix (l : List Char) : trim_left l <:+ l :=
  List.dropWhile_suffix isPySpace

theorem pyStrip_within (l : List Char) : pyStrip l <:+: l :=
  (trim_right_shrinks (trim_left l)).isInfix.trans (trim_left_suffix l).isInfix

theorem trim_left_idem (l : List Char) : trim_left (trim_left l) = trim_left l :=
  dropWhile_idem isPySpace l

theorem trim_right_idem (l : List Char) :
    trim_right (trim_right l) = trim_right l := by
  rw [trim_right, trim_right, List.reverse_reverse, dropWhile_idem]

theorem trim_left_trim_right (l : List Char) (h : trim_left l = l) :
    trim_left (trim_right l) = trim_right l :=
  dropWhile_of_prefix isPySpace l (trim_right l) h (trim_right_shrinks l)

theorem pyStrip_idem (l : List Char) : pyStrip (pyStrip l) = pyStrip l := by
  rw [pyStrip, pyStrip, trim_left_trim_right (trim_left l) (trim_left_idem l),
    trim_right_idem]

/-! ## Output lines of the stripper are comment-free -/

/-- A line as it can appear in the stripper's output: no block opener, no
line-comment marker, already stripped. -/
def GoodLine (l : List Char) : Prop :=
  ¬ ml_comment_start <:+: l ∧ ¬ comment_start <:+: l ∧ pyStrip l = l

theorem goodLine_nil : GoodLine [] := by
  refine ⟨?_, ?_, rfl⟩ <;>
    · intro h
      have := List.eq_nil_of_infix_nil h
      simp [ml_comment_start, comment_start] at this

theorem strip_block_loop_no_start (fuel : Nat) :
    ∀ line active l a, strip_block_loop fuel line active = some (l, a) →
      substr_find l ml_comment_start = none := by
  induction fuel with
  | zero =>
    intro line active l a h
    exact absurd h (by rw [strip_block_loop]; simp)
  | succ n ih =>
    intro line active l a h
    rw [strip_block_loop] at h
    cases hf : substr_find line ml_comment_start <;> rw [hf] at h
    case none =>
      obtain ⟨rfl, rfl⟩ : line = l ∧ active = a := by
        constructor <;> [exact congrArg Prod.fst (Option.some_inj.mp h);
          exact congrArg Prod.snd (Option.some_inj.mp h)]
      exact hf
    case some idx =>
      cases hf2 : substr_find line ml_comment_end <;> rw [hf2] at h
      case none => exact ih _ _ _ _ h
      case some e => exact ih _ _ _ _ h

theorem truncate_at_comment_of_none (l : List Char)
    (h : substr_find l comment_start = none) : truncate_at_comment l = l := by
  rw [truncate_at_comment, h]

theorem truncate_at_comment_of_some (l : List Char) (i : Nat)
    (h : substr_find l comment_start = some i) :
    truncate_at_comment l = l.take i := by
  rw [truncate_at_comment, h]

theorem truncate_no_comment (l : List Char) :
    ¬ comment_start <:+: truncate_at_comment l := by
  rw [truncate_at_comment]
  cases hc : substr_find l comment_start with
  | none => exact (substr_find_none_iff _ _).mp hc
  | some i => exact substr_find_first_take l '/' ['/'] i hc

theorem truncate_within (l : List Char) : truncate_at_comment l <:+: l := by
  rw [truncate_at_comment]
  cases substr_find l comment_start with
  | none => exact List.infix_rfl
  | some i => exact (List.take_prefix i l).isInfix

theorem handle_not_active_good (fuel : Nat) (line l : List Char) (a : Bool)
    (h : handle_not_active fuel line = some (l, a)) : GoodLine l := by
  rw [handle_not_active] at h
  cases hs : strip_block_loop fuel line false <;> rw [hs] at h
  case none => exact absurd h (by simp)
  case some pr =>
    obtain ⟨l0, a0⟩ := pr
    have hl : pyStrip (truncate_at_comment l0) = l := by
      exact congrArg Prod.fst (Option.some_inj.mp h)
    have hstart : substr_find l0 ml_comment_start = none :=
      strip_block_loop_no_start fuel line false l0 a0 hs
    have h1 : ¬ ml_comment_start <:+: l0 := (substr_find_none_iff _ _).mp hstart
    subst hl
    refine ⟨?_, ?_, pyStrip_idem _⟩
    · intro hc
      exact h1 ((hc.trans (pyStrip_within _)).trans (truncate_within l0))
    · intro hc
      exact truncate_no_comment l0 (hc.trans (pyStrip_within _))

theorem handle_good (fuel : Nat) (line : List Char) (act : Bool)
    (l : List Char) (a : Bool)
    (h : handle_complex_comments fuel line act = some (l, a)) : GoodLine l := by
  rw [handle_complex_comments] at h
  cases act with
  | false =>
    rw [if_neg (by simp)] at h
    exact handle_not_active_good fuel line l a h
  | true =>
    rw [if_pos rfl] at h
    cases he : substr_find line ml_comment_end <;> rw [he] at h
    case none =>
      have hl : ([] : List Char) = l := congrArg Prod.fst (Option.some_inj.mp h)
      rw [← hl]
      exact goodLine_nil
    case some e =>
      have h' : (match handle_not_active fuel (remove_all (line.take (e + 2)) line) with
          | none => none
          | some (l, a) => some (pyStrip l, a)) = some (l, a) := h
      cases hn : handle_not_active fuel (remove_all (line.take (e + 2)) line) <;>
        rw [hn] at h'
      case none => exact absurd h' (by simp)
      case some pr =>
        obtain ⟨l', a'⟩ := pr
        have hg := handle_not_active_good fuel _ l' a' hn
        have hl : pyStrip l' = l := congrArg Prod.fst (Option.some_inj.mp h')
        rw [← hl, hg.2.2]
        exact hg

theorem remove_comments_from_good (fuel : Nat) :
    ∀ (input : List (List Char)) (act : Bool) (stack out : List (List Char)),
      remove_comments_from fuel input act stack = some out →
      (∀ l ∈ stack, GoodLine l ∧ l ≠ []) →
      ∀ l ∈ out, GoodLine l ∧ l ≠ [] := by
  intro input
  induction input with
  | nil =>
    intro act stack out h hstack
    rw [remove_comments_from] at h
    obtain rfl : stack = out := Option.some_inj.mp h
    exact hstack
  | cons line rest ih =>
    intro act stack out h hstack
    rw [remove_comments_from] at h
    by_cases hf : (is_single_comment line || is_full_ml_comment line) = true
    · rw [if_pos hf] at h
      exact ih act stack out h hstack
    · rw [if_neg hf] at h
      cases hh : handle_complex_comments fuel line act <;> rw [hh] at h
      · exact absurd h (by simp)
      · rename_i pr
        obtain ⟨l, a⟩ := pr
        have h' : (if a = false ∧ l ≠ [] then
            remove_comments_from fuel rest a (stack ++ [l])
          else remove_comments_from fuel rest a stack) = some out := h
        by_cases hcond : a = false ∧ l ≠ []
        · rw [if_pos hcond] at h'
          refine ih a _ out h' ?_
          intro x hx
          rcases List.mem_append.mp hx with hx | hx
          · exact hstack x hx
          · rw [List.mem_singleton] at hx
            subst hx
            exact ⟨handle_good fuel line act x a hh, hcond.2⟩
        · rw [if_neg hcond] at h'
          exact ih a stack out h' hstack

theorem isPrefixOf_eq_false_of_no_marker (pat l : List Char) (h : ¬ pat <:+: l) :
    pat.isPrefixOf l = false := by
  by_contra hb
  have hpre : pat <+: l := List.isPrefixOf_iff_prefix.mp (by simpa using hb)
  exact h hpre.isInfix

theorem remove_comments_from_of_good (g : Nat) :
    ∀ (out acc : List (List Char)),
      (∀ l ∈ out, GoodLine l ∧ l ≠ []) →
      remove_comments_from (g + 1) out false acc = some (acc ++ out) := by
  intro out
  induction out with
  | nil =>
    intro acc _
    rw [remove_comments_from]
    simp
  | cons l rest ih =>
    intro acc hgood
    obtain ⟨⟨hml, hcs, hstrip⟩, hne⟩ := hgood l (by simp)
    have hsingle : is_single_comment l = false := by
      rw [is_single_comment]
      exact isPrefixOf_eq_false_of_no_marker _ _ hcs
    have hfullml : is_full_ml_comment l = false := by
      rw [is_full_ml_comment]
      rw [isPrefixOf_eq_false_of_no_marker _ _ hml]
      simp
    have hno : substr_find l ml_comment_start = none :=
      (substr_find_none_iff _ _).mpr hml
    have hnoc : substr_find l comment_start = none :=
      (substr_find_none_iff _ _).mpr hcs
    have hloop : strip_block_loop (g + 1) l false = some (l, false) := by
      rw [strip_block_loop, hno]
    have hhandle : handle_complex_comments (g + 1) l false = some (l, false) := by
      have hb : handle_complex_comments (g + 1) l false =
          handle_not_active (g + 1) l := by
        rw [handle_complex_comments, if_neg (by simp)]
      rw [hb, handle_not_active, hloop]
      show some (pyStrip (truncate_at_comment l), false) = some (l, false)
      rw [truncate_at_comment_of_none l hnoc, hstrip]
    rw [remove_comments_from, if_neg (by simp [hsingle, hfullml]), hhandle]
    show (if false = false ∧ l ≠ [] then
        remove_comments_from (g + 1) rest false (acc ++ [l])
      else remove_comments_from (g + 1) rest false acc) = some (acc ++ l :: rest)
    rw [if_pos ⟨rfl, hne⟩, ih (acc ++ [l]) (fun x hx => hgood x (by simp [hx]))]
    simp

/-! ## Claim C8: idempotence of `remove_comments` -/

/-- Claim C8: whenever `remove_comments` terminates (some fuel suffices), its
output lines contain neither `/*` nor `//` and are already stripped, so a
second application — with any positive fuel — returns the output unchanged. -/
theorem remove_comments_idempotent (fuel g : Nat)
    (input out : List (List Char))
    (h : remove_comments fuel input = some out) :
    remove_comments (g + 1) out = some out := by
  have hgood : ∀ l ∈ out, GoodLine l ∧ l ≠ [] :=
    remove_comments_from_good fuel input false [] out h (by simp)
  have hrun := remove_comments_from_of_good g out [] hgood
  rw [remove_comments, hrun]
  simp

/-- Witness for `remove_comments_idempotent` on a concrete file. -/
theorem remove_comments_idempotent_witness :
    remove_comments 1 ["let x; // c".toList] = some ["let x;".toList] ∧
    remove_comments 1 ["let x;".toList] = some ["let x;".toList] :=
  ⟨rfl, remove_comments_idempotent 1 0 ["let x; // c".toList]
    ["let x;".toList] rfl⟩

/-! ## Claim C10: the stripper is string-unaware -/

/-- Claim C10: the comment stripper does not parse string literals.  On any
line without `/*` whose first `//` is at position `i > 0` (in particular,
inside a double-quoted string), `remove_comments` truncates the line at that
`//` and keeps only the stripped prefix. -/
theorem strip_is_string_unaware (line : List Char) (i fuel : Nat)
    (h1 : substr_find line ml_comment_start = none)
    (h2 : substr_find line comment_start = some i)
    (h3 : 0 < i)
    (h4 : pyStrip (line.take i) ≠ []) :
    remove_comments (fuel + 1) [line] = some [pyStrip (line.take i)] := by
  obtain ⟨_, hmin⟩ := substr_find_some_min line comment_start i h2
  have hsingle : is_single_comment line = false := by
    rw [is_single_comment]
    by_contra hb
    have hpre : comment_start <+: line :=
      List.isPrefixOf_iff_prefix.mp (by simpa using hb)
    exact hmin 0 h3 (by simpa using hpre)
  have hfullml : is_full_ml_comment line = false := by
    rw [is_full_ml_comment]
    rw [isPrefixOf_eq_false_of_no_marker _ _ ((substr_find_none_iff _ _).mp h1)]
    simp
  have hloop : strip_block_loop (fuel + 1) line false = some (line, false) := by
    rw [strip_block_loop, h1]
  have hhandle : handle_complex_comments (fuel + 1) line false =
      some (pyStrip (line.take i), false) := by
    have hb : handle_complex_comments (fuel + 1) line false =
        handle_not_active (fuel + 1) line := by
      rw [handle_complex_comments, if_neg (by simp)]
    rw [hb, handle_not_active, hloop]
    show some (pyStrip (truncate_at_comment line), false) =
      some (pyStrip (line.take i), false)
    rw [truncate_at_comment_of_some line i h2]
  rw [remove_comments, remove_comments_from,
    if_neg (by simp [hsingle, hfullml]), hhandle]
  show (if false = false ∧ pyStrip (line.take i) ≠ [] then
      remove_comments_from (fuel + 1) [] false ([] ++ [pyStrip (line.take i)])
    else remove_comments_from (fuel + 1) [] false []) =
    some [pyStrip (line.take i)]
  rw [if_pos ⟨rfl, h4⟩, remove_comments_from]
  simp

/-- The line `let s = "a//b";`. -/
def c10Line : List Char :=
  "let s = ".toList ++ [quoteChar] ++ "a//b".toList ++ [quoteChar] ++ [';']

/-- Witness for `strip_is_string_unaware`: the `//` inside the string literal
of `let s = "a//b";` is at index 10, and the emitted line is `let s = "a`. -/
theorem strip_is_string_unaware_witness :
    substr_find c10Line comment_start = some 10 ∧
    remove_comments 1 [c10Line] = some [pyStrip (c10Line.take 10)] ∧
    pyStrip (c10Line.take 10) = "let s = ".toList ++ [quoteChar] ++ ['a'] :=
  ⟨rfl, strip_is_string_unaware c10Line 10 0 rfl rfl (by decide) (by decide),
    by decide⟩

/-! ## Tokenizer (src/jack_analyzer/tokenizer.py)

Tokens are emitted already rendered through `TOKEN_TEMPLATE`
(`<type> lexeme </type>` plus newline), as in the source. -/

/-- `KEYWORDS`. -/
def keywords : List (List Char) :=
  ["class", "method", "function", "constructor", "int", "boolean", "char",
   "void", "var", "static", "field", "let", "do", "if", "else", "while",
   "return", "true", "false", "null", "this"].map String.toList

/-- `SYMBOLS` (a set of one-character strings in the source). -/
def symbols : List Char :=
  ['{', '}', '(', ')', '[', ']', '.', ',', ';', '~',
   '+', '-', '*', '/', '&', '|', '<', '>', '=']

/-- `is_keyword`: membership in `KEYWORDS`. -/
def is_keyword (w : List Char) : Bool := keywords.any (fun k => k == w)

/-- `is_symbol`: the lexeme equals one of the one-character symbol strings. -/
def is_symbol (w : List Char) : Bool := symbols.any (fun s => w == [s])

/-- `str.isdigit()` restricted to ASCII digits (nonempty, all digits). -/
def py_isdigit (w : List Char) : Bool := !w.isEmpty && w.all Char.isDigit

/-- `is_string_constant`: starts and ends with a double quote and contains
exactly two quotes. -/
def is_string_constant (w : List Char) : Bool :=
  [quoteChar].isPrefixOf w && [quoteChar].isSuffixOf w &&
    (w.count quoteChar == 2)

/-- `classify_token` (lines 56-79): keyword, then symbol, then `isdigit()` —
with no range check of any kind — then string constant, else identifier. -/
def classify_token (token : List Char) : String :=
  if is_keyword token then "keyword"
  else if is_symbol token then "symbol"
  else if py_isdigit token then "integerConstant"
  else if is_string_constant token then "stringConstant"
  else "identifier"

/-- One character under `html.escape` (with its default quote handling);
equivalent to the source's sequential `replace` passes because the
ampersand pass runs first. -/
def html_escape_char (c : Char) : List Char :=
  if c = '&' then "&amp;".toList
  else if c = '<' then "&lt;".toList
  else if c = '>' then "&gt;".toList
  else if c = quoteChar then "&quot;".toList
  else if c = Char.ofNat 39 then "&#x27;".toList
  else [c]

/-- `escape_token`: strip double quotes, then `html.escape`. -/
def escape_token (token : List Char) : List Char :=
  (token.filter (fun c => !(c == quoteChar))).flatMap html_escape_char

/-- `TOKEN_TEMPLATE.format(token_type, token)`. -/
def token_xml (token_type : String) (token : List Char) : String :=
  "<" ++ token_type ++ "> " ++ String.mk token ++ " </" ++ token_type ++ ">\n"

/-- A classified, escaped, rendered token. -/
def render_token (w : List Char) : String :=
  token_xml (classify_token w) (escape_token w)

/-- Split at the first double quote, returning the part before it and the
part after it (the lazy body-and-closing-quote of `"[^"]*?"`). -/
def break_at_quote : List Char → Option (List Char × List Char)
  | [] => none
  | c :: rest =>
    if c = quoteChar then some ([], rest)
    else
      match break_at_quote rest with
      | some (b, a) => some (c :: b, a)
      | none => none

/-- `re.findall(r'"[^"]*?"|[^"\s]+', line)`: scan left to right; at a double
quote match the lazy quoted alternative (up to the next quote) or, when it
has no closing quote, fail and advance one character (the second alternative
excludes quotes); at whitespace advance; otherwise match the maximal run of
non-quote non-whitespace characters.  Fuel bounds the scan; every step
consumes at least one character, so `length + 1` always suffices. -/
def findall_go : Nat → List Char → List (List Char)
  | 0, _ => []
  | _, [] => []
  | f + 1, c :: rest =>
    if c = quoteChar then
      match break_at_quote rest with
      | some (before, after) =>
        (quoteChar :: (before ++ [quoteChar])) :: findall_go f after
      | none => findall_go f rest
    else if isPySpace c then findall_go f rest
    else
      let run := (c :: rest).takeWhile (fun ch => !(ch == quoteChar) && !isPySpace ch)
      run :: findall_go f ((c :: rest).drop run.length)

/-- `pattern.findall(line)` for the tokenizer's regex. -/
def findall_tokens (l : List Char) : List (List Char) :=
  findall_go (l.length + 1) l

/-- Loop body of `tokenize_symbols` (lines 179-194): accumulate non-symbol
characters; flush the accumulator before each symbol; flush the tail. -/
def tokenize_symbols_go : List Char → List Char → List String
  | [], token => if token.isEmpty then [] else [render_token token]
  | c :: rest, token =>
    if is_symbol [c] then
      (if token.isEmpty then [] else [render_token token]) ++
        (render_token [c] :: tokenize_symbols_go rest [])
    else tokenize_symbols_go rest (token ++ [c])

/-- `tokenize_symbols(word)`. -/
def tokenize_symbols (word : List Char) : List String :=
  tokenize_symbols_go word []

/-- `sum(sym in word for sym in SYMBOLS) > 0`: the word contains a symbol
character. -/
def contains_symbol (w : List Char) : Bool := w.any (fun c => is_symbol [c])

/-- `tokenize_line` (lines 120-162). -/
def tokenize_line (line : List Char) : List String :=
  if line.isEmpty then []
  else
    (findall_tokens line).flatMap (fun word =>
      if is_string_constant word then [render_token word]
      else if contains_symbol word then tokenize_symbols word
      else [render_token word])

/-! ## Claim C7: no integer range check -/

/-- Decimal value of a digit run. -/
def digit_run_val (w : List Char) : Nat :=
  w.foldl (fun acc c => acc * 10 + (c.toNat - 48)) 0

/-- The lexeme 32768, one past the Jack maximum 32767. -/
def c7Token : List Char := "32768".toList

/-- Claim C7 is false on the code: `classify_token` checks only `isdigit()`
and performs no range check, so the digit run 32768 (value > 32767) is
classified as `integerConstant`; the tokenizer has no lexical-error path at
all (its codomain is the five category names). -/
theorem classify_no_range_check_counterexample :
    digit_run_val c7Token = 32768 ∧
    classify_token c7Token = "integerConstant" := by
  exact ⟨by decide, by decide⟩

/-- No keyword starts with a digit. -/
def head_is_digit (w : List Char) : Bool :=
  match w with
  | [] => false
  | c :: _ => c.isDigit

theorem keywords_head_not_digit :
    keywords.all (fun k => !(head_is_digit k)) = true := by decide

theorem symbols_not_digit : symbols.all (fun s => !(s.isDigit)) = true := by
  decide

/-- Claim C7 (amended): every lexeme consisting solely of digits is
classified as `integerConstant`, with no bound on its value — digit runs
exceeding 32767 are classified exactly the same way and no out-of-range
error is reported. -/
theorem classify_digit_run (w : List Char) (hne : w ≠ [])
    (hdig : ∀ c ∈ w, c.isDigit = true) :
    classify_token w = "integerConstant" := by
  obtain ⟨c, rest, rfl⟩ : ∃ c rest, w = c :: rest := by
    cases w with
    | nil => exact absurd rfl hne
    | cons c rest => exact ⟨c, rest, rfl⟩
  have hc : c.isDigit = true := hdig c (by simp)
  have hkw : is_keyword (c :: rest) = false := by
    rw [is_keyword]
    by_contra hb
    have hmem : c :: rest ∈ keywords := by simpa using hb
    have hnd := List.all_eq_true.mp keywords_head_not_digit _ hmem
    simp [head_is_digit, hc] at hnd
  have hsym : is_symbol (c :: rest) = false := by
    rw [is_symbol]
    by_contra hb
    obtain ⟨s, hsmem, rfl, rfl⟩ :
        ∃ x ∈ symbols, c = x ∧ rest = [] := by simpa using hb
    have hnd := List.all_eq_true.mp symbols_not_digit _ hsmem
    simp [hc] at hnd
  have hdigit : py_isdigit (c :: rest) = true := by
    rw [py_isdigit]
    simp only [List.isEmpty_cons, Bool.not_false, Bool.true_and]
    exact List.all_eq_true.mpr hdig
  simp [classify_token, hkw, hsym, hdigit]

/-- Witness for `classify_digit_run` at a concrete out-of-range lexeme. -/
theorem classify_digit_run_witness :
    classify_token "98765".toList = "integerConstant" :=
  classify_digit_run ("98765".toList) (by decide) (by decide)

/-! ## Claim C9: string constant with an embedded symbol -/

/-- The line `let s = "a;b";`. -/
def c9Line : List Char :=
  "let s = ".toList ++ [quoteChar] ++ "a;b".toList ++ [quoteChar] ++ [';']

/-- Claim C9: tokenizing `let s = "a;b";` yields exactly five tokens, in
order: keyword `let`, identifier `s`, symbol `=`, stringConstant `a;b`
(quotes stripped), symbol `;`.  The `;` inside the quotes stays inside the
string constant. -/
theorem tokenize_string_with_symbol :
    tokenize_line c9Line =
      ["<keyword> let </keyword>\n",
       "<identifier> s </identifier>\n",
       "<symbol> = </symbol>\n",
       "<stringConstant> a;b </stringConstant>\n",
       "<symbol> ; </symbol>\n"] := by
  decide

end Jack
